import Mathlib

/-!  A shallow embedding of the convolution routines of `convolve.c`
(SSE-convolution) together with proofs about them.

Modelling conventions:
* Machine single-precision floats are modelled as rationals, so equalities
  below are exact field equalities; floating-point rounding is outside the
  model.
* A memory buffer is a total function from integer indices to rationals, so
  accesses outside the documented extent of a buffer are representable and
  observable.  Separate trace definitions record which `in` indices each
  routine loads and which `out` indices it stores.
* SIMD registers (`__m128`, `__m256`) are functions from lane numbers to
  rationals; the intrinsics are modelled lane-wise.
* `in_aligned[l]`, built in the C code by `memcpy(in_aligned[l], in+l, ...)`,
  is modelled as the exact shifted copy `fun j => inp (l + j)` for all `j`
  (the memcpy initialises the first `length - l` entries; the model extends
  the shift everywhere).
* Each routine returns a `ConvRes`: the final contents of `out` together
  with the C return status, which is the constant `0` in every routine.
-/

namespace Convolve

/-- A buffer of single-precision floats, modelled as a total map from
integer indices to rationals. -/
abbrev Buf := ℤ → ℚ

/-- Write value `v` at index `i` of buffer `b`. -/
def wr (b : Buf) (i : ℤ) (v : ℚ) : Buf := fun j => if j = i then v else b j

/-- Result of one convolution call: final `out` contents and return status. -/
structure ConvRes where
  out : Buf
  ret : ℤ

/-- A SIMD register, as a map from lane number to value.  `__m128` uses
lanes 0..3, `__m256` lanes 0..7. -/
abbrev Vec := ℕ → ℚ

/-- Model of `_mm_set1_ps`: repeat a scalar across all four lanes. -/
def mm_set1_ps (x : ℚ) : Vec := fun _ => x

/-- Model of `_mm_setzero_ps`. -/
def mm_setzero_ps : Vec := fun _ => 0

/-- Model of `_mm_loadu_ps`: unaligned load of four consecutive floats at index `i`. -/
def mm_loadu_ps (p : Buf) (i : ℤ) : Vec := fun r => p (i + (r : ℤ))

/-- Model of `_mm_mul_ps`: lane-wise product. -/
def mm_mul_ps (a b : Vec) : Vec := fun r => a r * b r

/-- Model of `_mm_add_ps`: lane-wise sum. -/
def mm_add_ps (a b : Vec) : Vec := fun r => a r + b r

/-- Model of `_mm_storeu_ps`: unaligned store of four lanes at indices `i..i+3`. -/
def mm_storeu_ps (o : Buf) (i : ℤ) (a : Vec) : Buf :=
  (List.range 4).foldl (fun o2 (r : ℕ) => wr o2 (i + (r : ℤ)) (a r)) o

/-- Model of `_mm256_broadcast_ss`: repeat a scalar across all eight lanes. -/
def mm256_broadcast_ss (x : ℚ) : Vec := fun _ => x

/-- Model of `_mm256_setzero_ps`. -/
def mm256_setzero_ps : Vec := fun _ => 0

/-- Model of `_mm256_loadu_ps`: unaligned load of eight consecutive floats. -/
def mm256_loadu_ps (p : Buf) (i : ℤ) : Vec := fun r => p (i + (r : ℤ))

/-- Model of `_mm256_mul_ps`: lane-wise product. -/
def mm256_mul_ps (a b : Vec) : Vec := fun r => a r * b r

/-- Model of `_mm256_add_ps`: lane-wise sum. -/
def mm256_add_ps (a b : Vec) : Vec := fun r => a r + b r

/-- Model of `_mm256_storeu_ps`: unaligned store of eight lanes at `i..i+7`. -/
def mm256_storeu_ps (o : Buf) (i : ℤ) (a : Vec) : Buf :=
  (List.range 8).foldl (fun o2 (r : ℕ) => wr o2 (i + (r : ℤ)) (a r)) o

/-- The shifted input replica `in_aligned[l]` (convolve.c:520-525 etc.),
modelled as the exact one-sample-per-row shift of the input. -/
def in_aligned (inp : Buf) (l : ℕ) : Buf := fun j => inp ((l : ℤ) + j)

/-- One scalar output cell, convolve.c:58-61:
`out[i] = 0.0; for (k) out[i] += in[i+k] * kernel[kernel_length-k-1];`.
This statement sequence is the body of `convolve_naive` and, verbatim, the
scalar tail of every vectorized variant. -/
def scalarCell (inp kern : Buf) (K : ℕ) (i : ℤ) (o : Buf) : Buf :=
  (List.range K).foldl
    (fun o2 (k : ℕ) => wr o2 i (o2 i + inp (i + (k : ℤ)) * kern ((K : ℤ) - (k : ℤ) - 1)))
    (wr o i 0)

/-- The value a scalar cell accumulates: the left fold of the tap loop. -/
def innerSum (inp kern : Buf) (K : ℕ) (i : ℤ) : ℚ :=
  (List.range K).foldl
    (fun a (k : ℕ) => a + inp (i + (k : ℤ)) * kern ((K : ℤ) - (k : ℤ) - 1)) 0

/-- convolve.c:53-65, `convolve_naive`: for each output index
`0 <= i <= length - kernel_length`, compute the cell scalar-wise. -/
def convolve_naive (inp out0 : Buf) (length : ℕ) (kern : Buf)
    (kernel_length : ℕ) : ConvRes :=
  ⟨(List.range (length + 1 - kernel_length)).foldl
      (fun o (i : ℕ) => scalarCell inp kern kernel_length (i : ℤ) o) out0,
    0⟩

/-- convolve.c:67-84, `convolve_reversed_naive`: zero every output cell,
then for each tap `k` add `in[i+k] * kernel[kernel_length-k-1]` into every
output cell. -/
def convolve_reversed_naive (inp out0 : Buf) (length : ℕ) (kern : Buf)
    (kernel_length : ℕ) : ConvRes :=
  ⟨(List.range kernel_length).foldl
      (fun o (k : ℕ) =>
        (List.range (length + 1 - kernel_length)).foldl
          (fun o2 (i : ℕ) =>
            wr o2 (i : ℤ)
              (o2 (i : ℤ) +
                inp ((i : ℤ) + (k : ℤ)) * kern ((kernel_length : ℤ) - (k : ℤ) - 1)))
          o)
      ((List.range (length + 1 - kernel_length)).foldl
        (fun o (i : ℕ) => wr o (i : ℤ) 0) out0),
    0⟩

/-- convolve.c:100-144, `convolve_sse_simple`.  The main loop
`for (i = 0; i < length - kernel_length; i += 4)` runs for
`i = 4*t`, `t < ceil((length - kernel_length)/4)`; each iteration
accumulates `kernel_reverse[k] * loadu(in + i + k)` over the taps and does a
4-wide store at `out + i`.  The last output index is then recomputed as a
scalar cell (convolve.c:136-141), identical to the `convolve_naive` body.
The broadcast `kernel_reverse[k] = set1(kernel[kernel_length - k - 1])` of
convolve.c:110-112 is inlined at its single use site. -/
def convolve_sse_simple (inp out0 : Buf) (length : ℕ) (kern : Buf)
    (kernel_length : ℕ) : ConvRes :=
  ⟨scalarCell inp kern kernel_length ((length : ℤ) - (kernel_length : ℤ))
      ((List.range ((((length : ℤ) - (kernel_length : ℤ)).toNat + 3) / 4)).foldl
        (fun o (t : ℕ) =>
          mm_storeu_ps o (4 * (t : ℤ))
            ((List.range kernel_length).foldl
              (fun acc (k : ℕ) =>
                mm_add_ps acc
                  (mm_mul_ps
                    (mm_set1_ps (kern ((kernel_length : ℤ) - (k : ℤ) - 1)))
                    (mm_loadu_ps inp (4 * (t : ℤ) + (k : ℤ)))))
              mm_setzero_ps))
        out0),
    0⟩

/-- convolve.c:500-568, `convolve_avx_unrolled_vector`, main body.
`krev t` is the content of both `kernel_reverse[t]` (all lanes equal) and
of the tail's read `kernel[KERNEL_LENGTH - t - 1]`.  The main loop steps
`i = 16*t` while `i < length - 16`; the `k` loop (`k += 16`, bound 16) runs
once with `k = 16*kq`, `kq = 0`; `l` ranges over the four shifted replicas
and `m = 4*mq` over the four tap sub-blocks.  The scalar tail at
`i = length - 16` reads `in_aligned[0]`. -/
def avx_uv_core (inp : Buf) (krev : ℕ → ℚ) (length : ℕ) (out0 : Buf) : Buf :=
  (List.range 16).foldl
    (fun o2 (k : ℕ) =>
      wr o2 ((length : ℤ) - 16)
        (o2 ((length : ℤ) - 16) +
          in_aligned inp 0 (((length : ℤ) - 16) + (k : ℤ)) * krev k))
    (wr
      ((List.range ((((length : ℤ) - 16).toNat + 15) / 16)).foldl
        (fun o (t : ℕ) =>
          let accs : Vec × Vec :=
            (List.range 1).foldl
              (fun accs (kq : ℕ) =>
                (List.range 4).foldl
                  (fun accs (l : ℕ) =>
                    (List.range 4).foldl
                      (fun (accs : Vec × Vec) (mq : ℕ) =>
                        (mm256_add_ps accs.1
                            (mm256_mul_ps
                              (mm256_broadcast_ss (krev (16 * kq + l + 4 * mq)))
                              (mm256_loadu_ps (in_aligned inp l)
                                (16 * (t : ℤ) + 16 * (kq : ℤ) + 4 * (mq : ℤ)))),
                          mm256_add_ps accs.2
                            (mm256_mul_ps
                              (mm256_broadcast_ss (krev (16 * kq + l + 4 * mq)))
                              (mm256_loadu_ps (in_aligned inp l)
                                (16 * (t : ℤ) + 16 * (kq : ℤ) + 4 * (mq : ℤ) + 8)))))
                      accs)
                  accs)
              (mm256_setzero_ps, mm256_setzero_ps)
          mm256_storeu_ps
            (mm256_storeu_ps o (16 * (t : ℤ)) accs.1)
            (16 * (t : ℤ) + 8) accs.2)
        out0)
      ((length : ℤ) - 16) 0)

/-- convolve.c:573-632, `convolve_avx_unrolled_vector_unaligned`, main body:
as `avx_uv_core` but loading `in + l + data_offset + m` directly and the
tail reading `in[i+k]`. -/
def avx_uvu_core (inp : Buf) (krev : ℕ → ℚ) (length : ℕ) (out0 : Buf) : Buf :=
  (List.range 16).foldl
    (fun o2 (k : ℕ) =>
      wr o2 ((length : ℤ) - 16)
        (o2 ((length : ℤ) - 16) + inp (((length : ℤ) - 16) + (k : ℤ)) * krev k))
    (wr
      ((List.range ((((length : ℤ) - 16).toNat + 15) / 16)).foldl
        (fun o (t : ℕ) =>
          let accs : Vec × Vec :=
            (List.range 1).foldl
              (fun accs (kq : ℕ) =>
                (List.range 4).foldl
                  (fun accs (l : ℕ) =>
                    (List.range 4).foldl
                      (fun (accs : Vec × Vec) (mq : ℕ) =>
                        (mm256_add_ps accs.1
                            (mm256_mul_ps
                              (mm256_broadcast_ss (krev (16 * kq + l + 4 * mq)))
                              (mm256_loadu_ps inp
                                ((l : ℤ) + (16 * (t : ℤ) + 16 * (kq : ℤ)) + 4 * (mq : ℤ)))),
                          mm256_add_ps accs.2
                            (mm256_mul_ps
                              (mm256_broadcast_ss (krev (16 * kq + l + 4 * mq)))
                              (mm256_loadu_ps inp
                                ((l : ℤ) + (16 * (t : ℤ) + 16 * (kq : ℤ)) + 4 * (mq : ℤ) + 8)))))
                      accs)
                  accs)
              (mm256_setzero_ps, mm256_setzero_ps)
          mm256_storeu_ps
            (mm256_storeu_ps o (16 * (t : ℤ)) accs.1)
            (16 * (t : ℤ) + 8) accs.2)
        out0)
      ((length : ℤ) - 16) 0)

/-- convolve.c:500-568, `convolve_avx_unrolled_vector`.  Every kernel access
in its body uses the compile-time constant `KERNEL_LENGTH = 16`; the
`kernel_length` parameter does not occur in the body.  The 16-entry array
`kernel_reverse` (entry `t` holds `kernel[16 - t - 1]`) is modelled by the
function argument of `avx_uv_core`, with `0` for out-of-range entries. -/
def convolve_avx_unrolled_vector (inp out0 : Buf) (length : ℕ) (kern : Buf)
    (kernel_length : ℕ) : ConvRes :=
  ⟨avx_uv_core inp
      (fun t => if t < 16 then kern ((16 : ℤ) - (t : ℤ) - 1) else 0) length out0,
    0⟩

/-- convolve.c:573-632, `convolve_avx_unrolled_vector_unaligned`; like
`convolve_avx_unrolled_vector` without the shifted replicas.  The
`kernel_length` parameter does not occur in the body. -/
def convolve_avx_unrolled_vector_unaligned (inp out0 : Buf) (length : ℕ)
    (kern : Buf) (kernel_length : ℕ) : ConvRes :=
  ⟨avx_uvu_core inp
      (fun t => if t < 16 then kern ((16 : ℤ) - (t : ℤ) - 1) else 0) length out0,
    0⟩

/-- The sequence of `out` indices stored by `convolve_naive`
(convolve.c:56-62): for each output cell, one zeroing store followed by one
accumulation store per tap. -/
def naive_stores (length kernel_length : ℕ) : List ℤ :=
  (List.range (length + 1 - kernel_length)).flatMap
    (fun (i : ℕ) => (i : ℤ) :: List.replicate kernel_length (i : ℤ))

/-- The sequence of `in` indices loaded by `convolve_naive`. -/
def naive_loads (length kernel_length : ℕ) : List ℤ :=
  (List.range (length + 1 - kernel_length)).flatMap
    (fun (i : ℕ) => (List.range kernel_length).map (fun (k : ℕ) => (i : ℤ) + (k : ℤ)))

/-- The sequence of `out` indices stored by `convolve_reversed_naive`
(convolve.c:70-81): the zeroing pass, then one store per cell per tap. -/
def reversed_stores (length kernel_length : ℕ) : List ℤ :=
  (List.range (length + 1 - kernel_length)).map (fun (i : ℕ) => (i : ℤ))
    ++ (List.range kernel_length).flatMap
        (fun _ => (List.range (length + 1 - kernel_length)).map (fun (i : ℕ) => (i : ℤ)))

/-- The sequence of `in` indices loaded by `convolve_reversed_naive`. -/
def reversed_loads (length kernel_length : ℕ) : List ℤ :=
  (List.range kernel_length).flatMap
    (fun (k : ℕ) =>
      (List.range (length + 1 - kernel_length)).map (fun (i : ℕ) => (i : ℤ) + (k : ℤ)))

/-- The sequence of `out` indices stored by `convolve_sse_simple`
(convolve.c:114-141): each main-loop iteration `i = 4*t` does one 4-wide
store at `out + i`; the tail then stores `out[length-kernel_length]` once to
zero it and once per tap. -/
def sse_simple_stores (length kernel_length : ℕ) : List ℤ :=
  (List.range ((((length : ℤ) - (kernel_length : ℤ)).toNat + 3) / 4)).flatMap
    (fun (t : ℕ) => (List.range 4).map (fun (r : ℕ) => 4 * (t : ℤ) + (r : ℤ)))
    ++ ((length : ℤ) - (kernel_length : ℤ))
        :: List.replicate kernel_length ((length : ℤ) - (kernel_length : ℤ))

/-- The sequence of `in` indices loaded by `convolve_sse_simple`: each
main-loop iteration does one 4-wide load at `in + i + k` per tap `k`; the
tail loads `in[length-kernel_length+k]` per tap. -/
def sse_simple_loads (length kernel_length : ℕ) : List ℤ :=
  (List.range ((((length : ℤ) - (kernel_length : ℤ)).toNat + 3) / 4)).flatMap
    (fun (t : ℕ) =>
      (List.range kernel_length).flatMap
        (fun (k : ℕ) => (List.range 4).map (fun (r : ℕ) => 4 * (t : ℤ) + (k : ℤ) + (r : ℤ))))
    ++ (List.range kernel_length).map
        (fun (k : ℕ) => (length : ℤ) - (kernel_length : ℤ) + (k : ℤ))

/-- A buffer holding the entries of `l` at indices `0..l.length-1` and `0`
elsewhere. -/
def bufOfList (l : List ℚ) : Buf :=
  fun i => if 0 ≤ i ∧ i < (l.length : ℤ) then l.getD i.toNat 0 else 0

/-- The concrete test signal `[1,2,3,4,5]` of the spec scenario. -/
def sigC : Buf := bufOfList [1, 2, 3, 4, 5]

/-- The concrete test kernel `[1,0,-1]` of the spec scenario. -/
def kerC : Buf := bufOfList [1, 0, -1]

/-- An all-ones buffer, used to instantiate theorems. -/
def onesBuf : Buf := fun _ => 1

/-- An all-zeros buffer, used to instantiate theorems. -/
def zeroBuf : Buf := fun _ => 0

/-- A 16-entry constant kernel, used to instantiate theorems. -/
def kernA : Buf := fun _ => 1

/-- A kernel agreeing with `kernA` on indices 0..15 and differing beyond. -/
def kernB : Buf := fun j => if j < 16 then 1 else 2



theorem foldl_keep (l : List ℕ) (b : Buf) : l.foldl (fun o _ => o) b = b := by
  induction l generalizing b with
  | nil => rfl
  | cons x xs ih => simp [ih]


theorem foldl_add_init (l : List ℕ) (f : ℕ → ℚ) (c : ℚ) :
    l.foldl (fun a k => a + f k) c = c + l.foldl (fun a k => a + f k) 0 := by
  induction l generalizing c with
  | nil => simp
  | cons x xs ih =>
    simp only [List.foldl_cons]
    rw [ih (c + f x), ih (0 + f x)]
    ring

theorem foldl_range_sum (f : ℕ → ℚ) (K : ℕ) :
    (List.range K).foldl (fun a k => a + f k) 0 = ∑ k ∈ Finset.range K, f k := by
  induction K with
  | zero => simp
  | succ n ih =>
    rw [List.range_succ, List.foldl_append, List.foldl_cons, List.foldl_nil,
      Finset.sum_range_succ, ih]

theorem accumFold_at (f : ℕ → ℚ) (i : ℤ) (l : List ℕ) (o : Buf) (j : ℤ) :
    (l.foldl (fun o2 k => wr o2 i (o2 i + f k)) o) j
      = if j = i then o i + l.foldl (fun a k => a + f k) 0 else o j := by
  induction l generalizing o with
  | nil =>
    by_cases h : j = i <;> simp [h]
  | cons x xs ih =>
    simp only [List.foldl_cons]
    rw [ih]
    by_cases h : j = i
    · rw [if_pos h, if_pos h]
      have hw : wr o i (o i + f x) i = o i + f x := by simp [wr]
      rw [hw, foldl_add_init xs f (0 + f x)]
      ring
    · rw [if_neg h, if_neg h]
      simp [wr, h]

theorem scalarCell_at (inp kern : Buf) (K : ℕ) (i : ℤ) (o : Buf) (j : ℤ) :
    scalarCell inp kern K i o j = if j = i then innerSum inp kern K i else o j := by
  unfold scalarCell innerSum
  rw [accumFold_at]
  by_cases h : j = i <;> simp [h, wr]

theorem naiveFold_at (inp kern : Buf) (K n : ℕ) (o : Buf) (j : ℤ) :
    ((List.range n).foldl (fun o2 (i : ℕ) => scalarCell inp kern K (i : ℤ) o2) o) j
      = if 0 ≤ j ∧ j < (n : ℤ) then innerSum inp kern K j else o j := by
  induction n with
  | zero =>
    simp only [List.range_zero, List.foldl_nil]
    rw [if_neg (by omega)]
  | succ n ih =>
    rw [List.range_succ, List.foldl_append, List.foldl_cons, List.foldl_nil,
      scalarCell_at, ih]
    by_cases h : j = (n : ℤ)
    · rw [if_pos h, if_pos (by push_cast; omega), h]
    · rw [if_neg h]
      by_cases h2 : 0 ≤ j ∧ j < (n : ℤ)
      · rw [if_pos h2, if_pos (by push_cast; push_cast at h2; omega)]
      · rw [if_neg h2, if_neg (by push_cast; push_cast at h2; omega)]

theorem naive_at (inp out0 kern : Buf) (N K : ℕ) (h2 : K ≤ N)
    (j : ℤ) (hj0 : 0 ≤ j) (hj : j ≤ (N : ℤ) - K) :
    (convolve_naive inp out0 N kern K).out j = innerSum inp kern K j := by
  simp only [convolve_naive]
  rw [naiveFold_at, if_pos]
  refine ⟨hj0, ?_⟩
  have hc : ((N + 1 - K : ℕ) : ℤ) = (N : ℤ) + 1 - K := by omega
  omega

theorem zeroFold_at (n : ℕ) (o : Buf) (j : ℤ) :
    ((List.range n).foldl (fun o2 (i : ℕ) => wr o2 (i : ℤ) 0) o) j
      = if 0 ≤ j ∧ j < (n : ℤ) then 0 else o j := by
  induction n with
  | zero =>
    simp only [List.range_zero, List.foldl_nil]
    rw [if_neg (by omega)]
  | succ n ih =>
    rw [List.range_succ, List.foldl_append, List.foldl_cons, List.foldl_nil]
    simp only [wr]
    rw [ih]
    by_cases h : j = (n : ℤ)
    · rw [if_pos h, if_pos (by push_cast; omega)]
    · rw [if_neg h]
      by_cases h2 : 0 ≤ j ∧ j < (n : ℤ)
      · rw [if_pos h2, if_pos (by push_cast; push_cast at h2; omega)]
      · rw [if_neg h2, if_neg (by push_cast; push_cast at h2; omega)]

theorem innerRevFold_at (inp kern : Buf) (K k n : ℕ) (o : Buf) (j : ℤ) :
    ((List.range n).foldl
        (fun o2 (i : ℕ) =>
          wr o2 (i : ℤ)
            (o2 (i : ℤ) + inp ((i : ℤ) + (k : ℤ)) * kern ((K : ℤ) - (k : ℤ) - 1)))
        o) j
      = if 0 ≤ j ∧ j < (n : ℤ)
          then o j + inp (j + (k : ℤ)) * kern ((K : ℤ) - (k : ℤ) - 1)
          else o j := by
  induction n generalizing j with
  | zero =>
    simp only [List.range_zero, List.foldl_nil]
    rw [if_neg (by omega)]
  | succ n ih =>
    rw [List.range_succ, List.foldl_append, List.foldl_cons, List.foldl_nil]
    simp only [wr]
    rw [ih, ih]
    rw [if_neg (by omega : ¬(0 ≤ (n : ℤ) ∧ (n : ℤ) < (n : ℤ)))]
    by_cases h : j = (n : ℤ)
    · rw [if_pos h, if_pos (by push_cast; omega), h]
    · rw [if_neg h]
      by_cases h2 : 0 ≤ j ∧ j < (n : ℤ)
      · rw [if_pos h2, if_pos (by push_cast; omega)]
      · rw [if_neg h2, if_neg (by push_cast; omega)]

theorem revKFold_at (inp kern : Buf) (K M1 t : ℕ) (o : Buf) (j : ℤ) :
    ((List.range t).foldl
        (fun o2 (k : ℕ) =>
          (List.range M1).foldl
            (fun o3 (i : ℕ) =>
              wr o3 (i : ℤ)
                (o3 (i : ℤ) + inp ((i : ℤ) + (k : ℤ)) * kern ((K : ℤ) - (k : ℤ) - 1)))
            o2)
        o) j
      = if 0 ≤ j ∧ j < (M1 : ℤ)
          then o j + (List.range t).foldl
              (fun a (k : ℕ) => a + inp (j + (k : ℤ)) * kern ((K : ℤ) - (k : ℤ) - 1)) 0
          else o j := by
  induction t with
  | zero =>
    simp only [List.range_zero, List.foldl_nil]
    by_cases h : 0 ≤ j ∧ j < (M1 : ℤ) <;> simp [h]
  | succ t ih =>
    rw [List.range_succ, List.foldl_append, List.foldl_cons, List.foldl_nil,
      innerRevFold_at, ih]
    by_cases h : 0 ≤ j ∧ j < (M1 : ℤ)
    · rw [if_pos h, if_pos h, if_pos h]
      rw [List.foldl_append, List.foldl_cons, List.foldl_nil,
        foldl_add_init (List.range t) _ 0]
      ring
    · rw [if_neg h, if_neg h, if_neg h]

theorem reversed_at (inp out0 kern : Buf) (N K : ℕ) (h2 : K ≤ N)
    (j : ℤ) (hj0 : 0 ≤ j) (hj : j ≤ (N : ℤ) - K) :
    (convolve_reversed_naive inp out0 N kern K).out j = innerSum inp kern K j := by
  simp only [convolve_reversed_naive]
  have hv : 0 ≤ j ∧ j < ((N + 1 - K : ℕ) : ℤ) := by omega
  rw [revKFold_at, if_pos hv, zeroFold_at, if_pos hv, innerSum, zero_add]




theorem sseAcc_lane (inp kern : Buf) (K : ℕ) (i : ℤ) (r : ℕ) :
    ((List.range K).foldl
        (fun acc (k : ℕ) =>
          mm_add_ps acc
            (mm_mul_ps (mm_set1_ps (kern ((K : ℤ) - (k : ℤ) - 1)))
              (mm_loadu_ps inp (i + (k : ℤ)))))
        mm_setzero_ps) r
      = innerSum inp kern K (i + (r : ℤ)) := by
  have aux : ∀ (l : List ℕ) (acc : Vec),
      (l.foldl
          (fun acc (k : ℕ) =>
            mm_add_ps acc
              (mm_mul_ps (mm_set1_ps (kern ((K : ℤ) - (k : ℤ) - 1)))
                (mm_loadu_ps inp (i + (k : ℤ)))))
          acc) r
        = l.foldl
            (fun a (k : ℕ) =>
              a + inp (i + (r : ℤ) + (k : ℤ)) * kern ((K : ℤ) - (k : ℤ) - 1))
            (acc r) := by
    intro l
    induction l with
    | nil => intro acc; rfl
    | cons x xs ih =>
      intro acc
      simp only [List.foldl_cons]
      rw [ih]
      congr 1
      simp only [mm_add_ps, mm_mul_ps, mm_set1_ps, mm_loadu_ps]
      have h1 : i + (x : ℤ) + (r : ℤ) = i + (r : ℤ) + (x : ℤ) := by ring
      rw [h1, mul_comm]
  rw [aux]
  rfl

theorem mm_storeu_at (o : Buf) (i : ℤ) (a : Vec) (j : ℤ) :
    mm_storeu_ps o i a j
      = if 0 ≤ j - i ∧ j - i < 4 then a (j - i).toNat else o j := by
  have e : List.range 4 = [0, 1, 2, 3] := rfl
  unfold mm_storeu_ps
  rw [e]
  simp only [List.foldl_cons, List.foldl_nil, wr]
  by_cases h3 : j = i + ((3 : ℕ) : ℤ)
  · rw [if_pos h3, if_pos (by omega)]
    have hr : (j - i).toNat = 3 := by omega
    rw [hr]
  · rw [if_neg h3]
    by_cases h2 : j = i + ((2 : ℕ) : ℤ)
    · rw [if_pos h2, if_pos (by omega)]
      have hr : (j - i).toNat = 2 := by omega
      rw [hr]
    · rw [if_neg h2]
      by_cases h1 : j = i + ((1 : ℕ) : ℤ)
      · rw [if_pos h1, if_pos (by omega)]
        have hr : (j - i).toNat = 1 := by omega
        rw [hr]
      · rw [if_neg h1]
        by_cases h0 : j = i + ((0 : ℕ) : ℤ)
        · rw [if_pos h0, if_pos (by omega)]
          have hr : (j - i).toNat = 0 := by omega
          rw [hr]
        · rw [if_neg h0, if_neg (by omega)]

theorem sseMain_at (inp kern : Buf) (K n : ℕ) (o : Buf) (j : ℤ) :
    ((List.range n).foldl
        (fun o (t : ℕ) =>
          mm_storeu_ps o (4 * (t : ℤ))
            ((List.range K).foldl
              (fun acc (k : ℕ) =>
                mm_add_ps acc
                  (mm_mul_ps (mm_set1_ps (kern ((K : ℤ) - (k : ℤ) - 1)))
                    (mm_loadu_ps inp (4 * (t : ℤ) + (k : ℤ)))))
              mm_setzero_ps))
        o) j
      = if 0 ≤ j ∧ j < 4 * (n : ℤ) then innerSum inp kern K j else o j := by
  induction n with
  | zero =>
    simp only [List.range_zero, List.foldl_nil]
    rw [if_neg (by omega)]
  | succ n ih =>
    rw [List.range_succ, List.foldl_append, List.foldl_cons, List.foldl_nil,
      mm_storeu_at]
    by_cases h : 0 ≤ j - 4 * (n : ℤ) ∧ j - 4 * (n : ℤ) < 4
    · rw [if_pos h, sseAcc_lane, if_pos (by push_cast; omega)]
      congr 1
      omega
    · rw [if_neg h, ih]
      by_cases h2 : 0 ≤ j ∧ j < 4 * (n : ℤ)
      · rw [if_pos h2, if_pos (by push_cast; omega)]
      · rw [if_neg h2, if_neg (by push_cast; omega)]

theorem sse_at (inp out0 kern : Buf) (N K : ℕ) (h2 : K ≤ N)
    (j : ℤ) (hj0 : 0 ≤ j) (hj : j ≤ (N : ℤ) - K) :
    (convolve_sse_simple inp out0 N kern K).out j = innerSum inp kern K j := by
  simp only [convolve_sse_simple]
  rw [scalarCell_at]
  by_cases h : j = (N : ℤ) - (K : ℤ)
  · rw [if_pos h, h]
  · rw [if_neg h, sseMain_at, if_pos (by omega)]




theorem count_block_fold (K n : ℕ) (j : ℤ) :
    ((List.range n).flatMap (fun i => (i : ℤ) :: List.replicate K (i : ℤ))).count j
      = if 0 ≤ j ∧ j < (n : ℤ) then K + 1 else 0 := by
  induction n with
  | zero =>
    simp only [List.range_zero, List.flatMap_nil, List.count_nil]
    rw [if_neg (by omega)]
  | succ n ih =>
    rw [List.range_succ, List.flatMap_append, List.count_append, ih]
    have hblock : (([n] : List ℕ).flatMap (fun i => (i : ℤ) :: List.replicate K (i : ℤ))).count j
        = if j = (n : ℤ) then K + 1 else 0 := by
      simp only [List.flatMap_cons, List.flatMap_nil, List.append_nil, List.count_cons,
        List.count_replicate]
      by_cases h : j = (n : ℤ)
      · rw [if_pos h]
        simp [h]
      · rw [if_neg h]
        simp [h]
        exact ⟨fun hc => absurd hc.symm h, fun hc => h hc.symm⟩
    rw [hblock]
    by_cases h : j = (n : ℤ)
    · rw [if_pos h, if_neg (by omega), if_pos (by push_cast; omega)]
      omega
    · rw [if_neg h]
      by_cases h2 : 0 ≤ j ∧ j < (n : ℤ)
      · rw [if_pos h2, if_pos (by push_cast; omega)]
      · rw [if_neg h2, if_neg (by push_cast; omega)]

theorem avx_uv_tail_at (inp out0 kern : Buf) (N : ℕ) :
    (convolve_avx_unrolled_vector inp out0 N kern 16).out ((N : ℤ) - 16)
      = innerSum inp kern 16 ((N : ℤ) - 16) := by
  simp only [convolve_avx_unrolled_vector, avx_uv_core]
  rw [accumFold_at, if_pos rfl]
  simp only [wr, eq_self_iff_true, if_true]
  rw [zero_add, innerSum]
  apply List.foldl_ext
  intro a k hk
  rw [List.mem_range] at hk
  rw [if_pos hk]
  simp only [in_aligned]
  push_cast
  rw [zero_add]




/-- C1: for every signal of length `N ≥ 1` and kernel of length `K` with
`1 ≤ K ≤ N`, `convolve_naive` computes
`out[i] = Σ_{k=0}^{K-1} in[i+k] * kernel[K-1-k]` at every output index
`0 ≤ i ≤ N-K`, the kernel index descending as the inner data index
ascends. -/
theorem C1_naive_formula (inp out0 kern : Buf) (N K : ℕ)
    (hN : 1 ≤ N) (hK : 1 ≤ K) (hKN : K ≤ N)
    (i : ℤ) (hi0 : 0 ≤ i) (hi : i ≤ (N : ℤ) - K) :
    (convolve_naive inp out0 N kern K).out i
      = ∑ k ∈ Finset.range K, inp (i + (k : ℤ)) * kern ((K : ℤ) - 1 - (k : ℤ)) := by
  rw [naive_at inp out0 kern N K hKN i hi0 hi, innerSum, foldl_range_sum]
  refine Finset.sum_congr rfl (fun k hk => ?_)
  have h : (K : ℤ) - (k : ℤ) - 1 = (K : ℤ) - 1 - (k : ℤ) := by ring
  rw [h]

/-- C1 witness at `N = 2`, `K = 1`, `i = 0`, all-ones buffers. -/
theorem C1_witness :
    (convolve_naive onesBuf zeroBuf 2 onesBuf 1).out 0
      = ∑ k ∈ Finset.range 1,
          onesBuf (0 + (k : ℤ)) * onesBuf (((1 : ℕ) : ℤ) - 1 - (k : ℤ)) :=
  C1_naive_formula onesBuf zeroBuf onesBuf 2 1 (by decide) (by decide) (by decide)
    0 (by decide) (by decide)

/-- C2: at every valid output index, `convolve_reversed_naive` and
`convolve_sse_simple` produce the same output value as `convolve_naive` on
identical inputs (exact equality in the rational model, which subsumes
equality up to floating-point reassociation). -/
theorem C2_variant_equivalence (inp out0 kern : Buf) (N K : ℕ)
    (hK : 1 ≤ K) (hKN : K ≤ N)
    (j : ℤ) (hj0 : 0 ≤ j) (hj : j ≤ (N : ℤ) - K) :
    (convolve_reversed_naive inp out0 N kern K).out j
        = (convolve_naive inp out0 N kern K).out j
      ∧ (convolve_sse_simple inp out0 N kern K).out j
        = (convolve_naive inp out0 N kern K).out j := by
  rw [naive_at inp out0 kern N K hKN j hj0 hj,
    reversed_at inp out0 kern N K hKN j hj0 hj,
    sse_at inp out0 kern N K hKN j hj0 hj]
  exact ⟨rfl, rfl⟩

/-- C2 witness at `N = 6`, `K = 4` (a lane-width multiple), `j = 1`. -/
theorem C2_witness :
    (convolve_reversed_naive onesBuf zeroBuf 6 onesBuf 4).out 1
        = (convolve_naive onesBuf zeroBuf 6 onesBuf 4).out 1
      ∧ (convolve_sse_simple onesBuf zeroBuf 6 onesBuf 4).out 1
        = (convolve_naive onesBuf zeroBuf 6 onesBuf 4).out 1 :=
  C2_variant_equivalence onesBuf zeroBuf onesBuf 6 4 (by decide) (by decide)
    1 (by decide) (by decide)

/-- C3 counterexample: with `N = 10`, `K = 4` (so `1 ≤ K ≤ N` and `K` is a
multiple of the lane width, but `N - K = 6` is not a multiple of 4), the
main loop of `convolve_sse_simple` stores to `out` index 7, past
`out[N-K] = out[6]`, and loads `in` index 10, past `in[N-1] = in[9]`. -/
theorem C3_counterexample :
    (7 : ℤ) ∈ sse_simple_stores 10 4 ∧ ¬((7 : ℤ) ≤ (10 : ℤ) - 4)
      ∧ (10 : ℤ) ∈ sse_simple_loads 10 4 ∧ ¬((10 : ℤ) ≤ (10 : ℤ) - 1) := by
  decide

/-- C3 amended: under `1 ≤ K ≤ N`, all accesses of `convolve_sse_simple`
are in bounds when `(N-K) mod 4` is 0 or 3: every `out` store hits an index
in `0..N-K` and every `in` load an index in `0..N-1`.  (When `(N-K) mod 4`
is 1 or 2 the final vector iteration overruns both buffers, see the
counterexample.) -/
theorem C3_amended (N K : ℕ) (hK : 1 ≤ K) (hKN : K ≤ N)
    (hmod : (N - K) % 4 = 0 ∨ (N - K) % 4 = 3) :
    (sse_simple_stores N K).Forall (fun s => 0 ≤ s ∧ s ≤ (N : ℤ) - K)
      ∧ (sse_simple_loads N K).Forall (fun s => 0 ≤ s ∧ s ≤ (N : ℤ) - 1) := by
  rw [List.forall_iff_forall_mem, List.forall_iff_forall_mem]
  constructor
  · intro s hs
    unfold sse_simple_stores at hs
    rw [List.mem_append] at hs
    rcases hs with hs | hs
    · rw [List.mem_flatMap] at hs
      obtain ⟨t, ht, hs⟩ := hs
      rw [List.mem_range] at ht
      rw [List.mem_map] at hs
      obtain ⟨r, hr, rfl⟩ := hs
      rw [List.mem_range] at hr
      omega
    · rw [List.mem_cons, List.mem_replicate] at hs
      rcases hs with hs | ⟨hne, hs⟩ <;> subst hs <;> omega
  · intro s hs
    unfold sse_simple_loads at hs
    rw [List.mem_append] at hs
    rcases hs with hs | hs
    · rw [List.mem_flatMap] at hs
      obtain ⟨t, ht, hs⟩ := hs
      rw [List.mem_range] at ht
      rw [List.mem_flatMap] at hs
      obtain ⟨k, hk, hs⟩ := hs
      rw [List.mem_range] at hk
      rw [List.mem_map] at hs
      obtain ⟨r, hr, rfl⟩ := hs
      rw [List.mem_range] at hr
      omega
    · rw [List.mem_map] at hs
      obtain ⟨k, hk, rfl⟩ := hs
      rw [List.mem_range] at hk
      omega

/-- C3 witness at `N = 8`, `K = 4` (`N - K = 4`, a multiple of 4). -/
theorem C3_witness :
    (sse_simple_stores 8 4).Forall (fun s => 0 ≤ s ∧ s ≤ (8 : ℤ) - 4)
      ∧ (sse_simple_loads 8 4).Forall (fun s => 0 ≤ s ∧ s ≤ (8 : ℤ) - 1) :=
  C3_amended 8 4 (by decide) (by decide) (by decide)

/-- C4: the tail output value `out[N-K]` of `convolve_sse_simple` and of
`convolve_avx_unrolled_vector` (whose precondition fixes `K = 16`) equals
the value `convolve_naive` computes at that index — both sides are the same
left fold in the same operation order, so the equality is exact. -/
theorem C4_tail_exact (inp out0 kern : Buf) (N K N2 : ℕ)
    (hK : 1 ≤ K) (hKN : K ≤ N) (hN2 : 16 ≤ N2) :
    (convolve_sse_simple inp out0 N kern K).out ((N : ℤ) - K)
        = (convolve_naive inp out0 N kern K).out ((N : ℤ) - K)
      ∧ (convolve_avx_unrolled_vector inp out0 N2 kern 16).out ((N2 : ℤ) - 16)
        = (convolve_naive inp out0 N2 kern 16).out ((N2 : ℤ) - 16) := by
  constructor
  · rw [naive_at inp out0 kern N K hKN _ (by omega) (by omega),
      sse_at inp out0 kern N K hKN _ (by omega) (by omega)]
  · rw [avx_uv_tail_at,
      naive_at inp out0 kern N2 16 (by omega) _ (by omega) (by omega)]

/-- C4 witness at `N = 6`, `K = 4` (remainder 2, a non-empty non-full
vector remainder) and `N2 = 17` (remainder 1). -/
theorem C4_witness :
    (convolve_sse_simple onesBuf zeroBuf 6 onesBuf 4).out ((6 : ℤ) - 4)
        = (convolve_naive onesBuf zeroBuf 6 onesBuf 4).out ((6 : ℤ) - 4)
      ∧ (convolve_avx_unrolled_vector onesBuf zeroBuf 17 onesBuf 16).out ((17 : ℤ) - 16)
        = (convolve_naive onesBuf zeroBuf 17 onesBuf 16).out ((17 : ℤ) - 16) :=
  C4_tail_exact onesBuf zeroBuf onesBuf 6 4 17 (by decide) (by decide) (by decide)

/-- C5 amended: on `signal = [1,2,3,4,5]`, `kernel = [1,0,-1]` (`N = 5`,
`K = 3`), the variants whose preconditions admit `K = 3` — `convolve_naive`,
`convolve_reversed_naive` and `convolve_sse_simple` — all produce
`[2,2,2]` at output indices 0..2.  The fixed-kernel-length variants
(`KERNEL_LENGTH = 16`) do not, see the counterexample. -/
theorem C5_amended_scenario :
    ((convolve_naive sigC zeroBuf 5 kerC 3).out 0 = 2
      ∧ (convolve_naive sigC zeroBuf 5 kerC 3).out 1 = 2
      ∧ (convolve_naive sigC zeroBuf 5 kerC 3).out 2 = 2)
    ∧ ((convolve_reversed_naive sigC zeroBuf 5 kerC 3).out 0 = 2
      ∧ (convolve_reversed_naive sigC zeroBuf 5 kerC 3).out 1 = 2
      ∧ (convolve_reversed_naive sigC zeroBuf 5 kerC 3).out 2 = 2)
    ∧ ((convolve_sse_simple sigC zeroBuf 5 kerC 3).out 0 = 2
      ∧ (convolve_sse_simple sigC zeroBuf 5 kerC 3).out 1 = 2
      ∧ (convolve_sse_simple sigC zeroBuf 5 kerC 3).out 2 = 2) := by
  have hval : ∀ j : ℤ, 0 ≤ j → j ≤ (5 : ℤ) - 3 → innerSum sigC kerC 3 j = 2 := by
    intro j hj0 hj
    rw [innerSum, show List.range 3 = [0, 1, 2] from rfl]
    simp only [List.foldl_cons, List.foldl_nil, sigC, kerC, bufOfList]
    interval_cases j <;>
      norm_num [show ((2 : ℤ)).toNat = 2 from rfl, show ((3 : ℤ)).toNat = 3 from rfl,
        show ((4 : ℤ)).toNat = 4 from rfl]
  have h5 : ∀ j : ℤ, 0 ≤ j → j ≤ (5 : ℤ) - 3 →
      (convolve_naive sigC zeroBuf 5 kerC 3).out j = 2
        ∧ (convolve_reversed_naive sigC zeroBuf 5 kerC 3).out j = 2
        ∧ (convolve_sse_simple sigC zeroBuf 5 kerC 3).out j = 2 := by
    intro j hj0 hj
    rw [naive_at sigC zeroBuf kerC 5 3 (by omega) j hj0 (by push_cast; omega),
      reversed_at sigC zeroBuf kerC 5 3 (by omega) j hj0 (by push_cast; omega),
      sse_at sigC zeroBuf kerC 5 3 (by omega) j hj0 (by push_cast; omega),
      hval j hj0 hj]
    exact ⟨rfl, rfl, rfl⟩
  exact ⟨⟨(h5 0 (by omega) (by omega)).1, (h5 1 (by omega) (by omega)).1,
      (h5 2 (by omega) (by omega)).1⟩,
    ⟨(h5 0 (by omega) (by omega)).2.1, (h5 1 (by omega) (by omega)).2.1,
      (h5 2 (by omega) (by omega)).2.1⟩,
    ⟨(h5 0 (by omega) (by omega)).2.2, (h5 1 (by omega) (by omega)).2.2,
      (h5 2 (by omega) (by omega)).2.2⟩⟩

/-- C5 counterexample: `convolve_avx_unrolled_vector` on the scenario input
(`N = 5`, `K = 3`) never writes `out[0]` — its main loop runs zero times
and its tail writes at index `5 - 16 = -11` — so with an output buffer
holding 37 everywhere the result at index 0 stays 37, not 2. -/
theorem C5_counterexample :
    (convolve_avx_unrolled_vector sigC (fun _ => 37) 5 kerC 3).out 0 = 37
      ∧ ((37 : ℚ) ≠ 2) := by
  decide

/-- C6 amended: `convolve_naive` stores to each valid output index exactly
`K + 1` times (one zeroing store plus one accumulation store per tap) — so
at least once, not exactly once — and the buffer is fully overwritten: the
final value at every valid index does not depend on the output buffer's
prior contents. -/
theorem C6_amended (inp kern out0 out0' : Buf) (N K : ℕ)
    (hK : 1 ≤ K) (hKN : K ≤ N) (j : ℤ) (hj0 : 0 ≤ j) (hj : j ≤ (N : ℤ) - K) :
    (naive_stores N K).count j = K + 1
      ∧ (convolve_naive inp out0 N kern K).out j
          = (convolve_naive inp out0' N kern K).out j := by
  constructor
  · unfold naive_stores
    rw [count_block_fold, if_pos (by omega)]
  · rw [naive_at inp out0 kern N K hKN j hj0 hj,
      naive_at inp out0' kern N K hKN j hj0 hj]

/-- C6 witness at `N = 2`, `K = 1`, `j = 0`, two different initial output
buffers. -/
theorem C6_witness :
    (naive_stores 2 1).count 0 = 1 + 1
      ∧ (convolve_naive onesBuf zeroBuf 2 onesBuf 1).out 0
          = (convolve_naive onesBuf onesBuf 2 onesBuf 1).out 0 :=
  C6_amended onesBuf onesBuf zeroBuf onesBuf 2 1 (by decide) (by decide)
    0 (by decide) (by decide)

/-- C6 counterexample: with `N = 1`, `K = 1` the single valid output index
0 is stored twice by `convolve_naive` (the zeroing store and one
accumulation store), not exactly once. -/
theorem C6_counterexample :
    (naive_stores 1 1).count 0 = 2 ∧ (2 : ℕ) ≠ 1 := by
  decide

/-- C7: with a single-tap kernel (`K = 1`), `convolve_naive` reduces to
scaling: `out[i] = in[i] * kernel[0]` at every index `0 ≤ i ≤ N-1`. -/
theorem C7_single_tap (inp out0 kern : Buf) (N : ℕ) (hN : 1 ≤ N)
    (i : ℤ) (hi0 : 0 ≤ i) (hi : i ≤ (N : ℤ) - 1) :
    (convolve_naive inp out0 N kern 1).out i = inp i * kern 0 := by
  rw [naive_at inp out0 kern N 1 (by omega) i hi0 (by push_cast; omega),
    innerSum, show List.range 1 = [0] from rfl]
  norm_num

/-- C7 witness at `N = 1`, `i = 0`. -/
theorem C7_witness :
    (convolve_naive onesBuf zeroBuf 1 onesBuf 1).out 0 = onesBuf 0 * onesBuf 0 :=
  C7_single_tap onesBuf zeroBuf onesBuf 1 (by decide) 0 (by decide) (by decide)

/-- C8: linearity of `convolve_naive` in the kernel, exact in the rational
model: scaling the kernel elementwise by `c` scales every output value by
`c`, and convolving with the elementwise sum of two kernels gives the
elementwise sum of the two outputs. -/
theorem C8_linearity (inp out0 kern k1 k2 : Buf) (c : ℚ) (N K : ℕ)
    (hK : 1 ≤ K) (hKN : K ≤ N) (i : ℤ) (hi0 : 0 ≤ i) (hi : i ≤ (N : ℤ) - K) :
    (convolve_naive inp out0 N (fun j => c * kern j) K).out i
        = c * (convolve_naive inp out0 N kern K).out i
      ∧ (convolve_naive inp out0 N (fun j => k1 j + k2 j) K).out i
        = (convolve_naive inp out0 N k1 K).out i
          + (convolve_naive inp out0 N k2 K).out i := by
  constructor
  · rw [naive_at inp out0 (fun j => c * kern j) N K hKN i hi0 hi,
      naive_at inp out0 kern N K hKN i hi0 hi]
    simp only [innerSum, foldl_range_sum]
    rw [Finset.mul_sum]
    exact Finset.sum_congr rfl (fun k hk => by ring)
  · rw [naive_at inp out0 (fun j => k1 j + k2 j) N K hKN i hi0 hi,
      naive_at inp out0 k1 N K hKN i hi0 hi,
      naive_at inp out0 k2 N K hKN i hi0 hi]
    simp only [innerSum, foldl_range_sum]
    rw [← Finset.sum_add_distrib]
    exact Finset.sum_congr rfl (fun k hk => by ring)

/-- C8 witness at `N = 2`, `K = 1`, `c = 2`, `i = 0`. -/
theorem C8_witness :
    (convolve_naive onesBuf zeroBuf 2 (fun j => 2 * onesBuf j) 1).out 0
        = 2 * (convolve_naive onesBuf zeroBuf 2 onesBuf 1).out 0
      ∧ (convolve_naive onesBuf zeroBuf 2 (fun j => onesBuf j + onesBuf j) 1).out 0
        = (convolve_naive onesBuf zeroBuf 2 onesBuf 1).out 0
          + (convolve_naive onesBuf zeroBuf 2 onesBuf 1).out 0 :=
  C8_linearity onesBuf zeroBuf onesBuf onesBuf onesBuf 2 2 1 (by decide) (by decide)
    0 (by decide) (by decide)

/-- C9: the AVX variants never read the `kernel_length` argument nor any
kernel coefficient beyond index 15: two runs with the same signal, length,
initial output buffer and the same first 16 kernel coefficients, but
arbitrary `kernel_length` values and kernel tails, return identical
results. -/
theorem C9_kernel_independence (inp out0 : Buf) (N kl1 kl2 : ℕ)
    (kern1 kern2 : Buf)
    (hker : ∀ j : ℤ, 0 ≤ j → j < 16 → kern1 j = kern2 j) :
    convolve_avx_unrolled_vector inp out0 N kern1 kl1
        = convolve_avx_unrolled_vector inp out0 N kern2 kl2
      ∧ convolve_avx_unrolled_vector_unaligned inp out0 N kern1 kl1
        = convolve_avx_unrolled_vector_unaligned inp out0 N kern2 kl2 := by
  have hk : (fun (t : ℕ) => if t < 16 then kern1 ((16 : ℤ) - (t : ℤ) - 1) else 0)
      = (fun (t : ℕ) => if t < 16 then kern2 ((16 : ℤ) - (t : ℤ) - 1) else 0) := by
    funext t
    by_cases h : t < 16
    · rw [if_pos h, if_pos h, hker ((16 : ℤ) - (t : ℤ) - 1) (by omega) (by omega)]
    · rw [if_neg h, if_neg h]
  constructor
  · unfold convolve_avx_unrolled_vector
    rw [hk]
  · unfold convolve_avx_unrolled_vector_unaligned
    rw [hk]

/-- C9 witness: `kernA` and `kernB` agree on indices 0..15 and differ
beyond; `kernel_length` 3 versus 7. -/
theorem C9_witness :
    convolve_avx_unrolled_vector onesBuf zeroBuf 20 kernA 3
        = convolve_avx_unrolled_vector onesBuf zeroBuf 20 kernB 7
      ∧ convolve_avx_unrolled_vector_unaligned onesBuf zeroBuf 20 kernA 3
        = convolve_avx_unrolled_vector_unaligned onesBuf zeroBuf 20 kernB 7 :=
  C9_kernel_independence onesBuf zeroBuf 20 3 7 kernA kernB
    (fun j h1 h2 => by simp [kernA, kernB, h2])

/-- C10: with `K > N` both scalar kernels are total no-ops on the output:
no store and no load is performed, the output buffer is returned unchanged,
and the status is still 0. -/
theorem C10_overlong_kernel_noop (inp kern out0 : Buf) (N K : ℕ) (h : N < K) :
    (convolve_naive inp out0 N kern K).out = out0
      ∧ (convolve_naive inp out0 N kern K).ret = 0
      ∧ naive_stores N K = [] ∧ naive_loads N K = []
      ∧ (convolve_reversed_naive inp out0 N kern K).out = out0
      ∧ (convolve_reversed_naive inp out0 N kern K).ret = 0
      ∧ reversed_stores N K = [] ∧ reversed_loads N K = [] := by
  have h0 : N + 1 - K = 0 := by omega
  refine ⟨?_, rfl, ?_, ?_, ?_, rfl, ?_, ?_⟩
  · simp [convolve_naive, h0]
  · simp [naive_stores, h0]
  · simp [naive_loads, h0]
  · simp [convolve_reversed_naive, h0, foldl_keep]
  · simp [reversed_stores, h0]
  · simp [reversed_loads, h0]

/-- C10 witness at `N = 1`, `K = 2`. -/
theorem C10_witness :
    (convolve_naive onesBuf onesBuf 1 onesBuf 2).out = onesBuf
      ∧ (convolve_naive onesBuf onesBuf 1 onesBuf 2).ret = 0
      ∧ naive_stores 1 2 = [] ∧ naive_loads 1 2 = []
      ∧ (convolve_reversed_naive onesBuf onesBuf 1 onesBuf 2).out = onesBuf
      ∧ (convolve_reversed_naive onesBuf onesBuf 1 onesBuf 2).ret = 0
      ∧ reversed_stores 1 2 = [] ∧ reversed_loads 1 2 = [] :=
  C10_overlong_kernel_noop onesBuf onesBuf onesBuf 1 2 (by decide)



end Convolve
